import Mathlib

/-!
Verification of the dunst notification queue engine.

The repository ships the public contract `src/queues.h`; the implementation
file `queues.c` is not part of the source tree, so every operation below is
modelled from the specification (`spec.md`), faithful to its wording: the
three-stage queue model (waiting, displayed, history), insertion with
duplicate stacking and replacement, closing with history archival and close
signals, promotion under a display limit with a pause flag, the timeout
pass, and the next-event calculation.
-/

open List

namespace DunstQueues

/-- Modelled from the spec (missing queues.c, §6): the small fixed
enumeration of close reasons. -/
inductive Reason where
  | dismissedByUser
  | timeout
  | replaced
  | closedBySignal
  | undef
deriving DecidableEq, Repr

/-- Modelled from the spec (missing queues.c, §3): a configured display
duration may encode a finite span, "never expire", or "use default". -/
inductive Duration where
  | never
  | useDefault
  | millis (ms : Int)
deriving DecidableEq, Repr

/-- Modelled from the spec (missing queues.c, §3): the notification record
fields relevant to the engine: id (0 = not yet assigned), the
origin/content signature used for duplicate matching, the configured
duration, the transient flag, the shown-or-created timestamp, and the
running duplicate count. -/
structure Notification where
  id : Nat
  signature : Nat
  duration : Duration
  transient : Bool
  timestamp : Int
  dupCount : Nat
deriving DecidableEq, Repr

/-- Modelled from the spec (missing queues.c, §4, §9): externally
configured policy values: duplicate-stacking enabled, the default timeout,
the fullscreen override duration for transient records (none = override
disabled), the history capacity (0 = unlimited) and the age threshold for
the age display. -/
structure Config where
  stackDuplicates : Bool
  defaultTimeout : Duration
  fullscreenOverride : Option Int
  historyLimit : Nat
  ageThreshold : Option Int
deriving DecidableEq, Repr

/-- Modelled from the spec (missing queues.c, §3, §4.4): resolve a record
duration to "never expire" (none) or a finite number of milliseconds. -/
def resolvedDuration (cfg : Config) (n : Notification) : Option Int :=
  match n.duration with
  | Duration.never => none
  | Duration.millis d => some d
  | Duration.useDefault =>
    match cfg.defaultTimeout with
    | Duration.never => none
    | Duration.millis d => some d
    | Duration.useDefault => none

/-- Modelled from the spec (missing queues.c, §4.4): the Timeout Policy, a
pure function from a record and the idle/fullscreen environment to an
absolute expiry time; none means no expiry. Rules in order: never-expire
gives none; under fullscreen a transient record uses the override duration
unless the override is disabled; under idle the duration counts from the
time idle began, clamped to be never earlier than now; otherwise expiry is
the shown-or-created time plus the duration. -/
def expiry (cfg : Config) (idle fullscreen : Bool) (idleStart now : Int)
    (n : Notification) : Option Int :=
  match resolvedDuration cfg n with
  | none => none
  | some d0 =>
    let d : Int :=
      match cfg.fullscreenOverride with
      | some o => if fullscreen && n.transient then o else d0
      | none => d0
    if idle then some (max (idleStart + d) now)
    else some (n.timestamp + d)

/-- Modelled from the spec (missing queues.c, §4.1): the Queue Store: the
three ordered collections, the pause flag, the display limit (0 =
unlimited) and the monotone id counter. The `signals` field is the log of
emitted close signals, most recent last. -/
structure QueueState where
  waiting : List Notification
  displayed : List Notification
  history : List Notification
  paused : Bool
  limit : Nat
  nextId : Nat
  signals : List (Nat × Reason)
deriving DecidableEq, Repr

/-- Ids of the records of one collection, in collection order. -/
def ids (l : List Notification) : List Nat :=
  l.map (fun n => n.id)

/-- Ids of all live records: waiting, displayed and history. -/
def liveIds (st : QueueState) : List Nat :=
  ids st.waiting ++ ids st.displayed ++ ids st.history

/-- Modelled from the spec (missing queues.c, §6): initialise the store:
all collections empty, not paused, unlimited display, counter at 1. -/
def queues_init : QueueState :=
  ⟨[], [], [], false, 0, 1, []⟩

/-- Modelled from the spec (missing queues.c, §4.1): set the display
limit; takes effect on the next promotion pass only. -/
def queues_displayed_limit (limit : Nat) (st : QueueState) : QueueState :=
  { st with limit := limit }

/-- Modelled from the spec (missing queues.c, §4.1): read-only view of the
displayed collection. -/
def queues_get_displayed (st : QueueState) : List Notification :=
  st.displayed

/-- Modelled from the spec (missing queues.c, §4.1): length query. -/
def queues_length_waiting (st : QueueState) : Nat :=
  st.waiting.length

/-- Modelled from the spec (missing queues.c, §4.1): length query. -/
def queues_length_displayed (st : QueueState) : Nat :=
  st.displayed.length

/-- Modelled from the spec (missing queues.c, §4.1): length query. -/
def queues_length_history (st : QueueState) : Nat :=
  st.history.length

/-- Modelled from the spec (missing queues.c, §4.1): pure flag toggle. -/
def queues_pause_on (st : QueueState) : QueueState :=
  { st with paused := true }

/-- Modelled from the spec (missing queues.c, §4.1): pure flag toggle. -/
def queues_pause_off (st : QueueState) : QueueState :=
  { st with paused := false }

/-- Modelled from the spec (missing queues.c, §6): pause status query. -/
def queues_pause_status (st : QueueState) : Bool :=
  st.paused

/-- Modelled from the spec (missing queues.c, §4.3): history capacity
policy: when the configured history limit (0 = unlimited) is exceeded, the
oldest records (at the back, since history is most-recent-first) are
evicted and freed. -/
def enforceHistoryCap (cfg : Config) (h : List Notification) : List Notification :=
  if 0 < cfg.historyLimit ∧ cfg.historyLimit < h.length then
    h.take cfg.historyLimit
  else h

/-- Modelled from the spec (missing queues.c, §4.3): history-push: append
the record to the front of history (most recent first) and enforce the
history capacity policy. -/
def queues_history_push (cfg : Config) (n : Notification) (st : QueueState) : QueueState :=
  { st with history := enforceHistoryCap cfg (n :: st.history) }

/-- Modelled from the spec (missing queues.c, §4.2): archive a record
already removed from its collection and emit the close signal carrying its
id and the reason. -/
def closeAndSignal (cfg : Config) (r : Reason) (n : Notification)
    (st : QueueState) : QueueState :=
  let st1 := queues_history_push cfg n st
  { st1 with signals := st1.signals ++ [(n.id, r)] }

/-- Remove the first record with the given id from a list, returning the
record and the remaining list; none when no record matches. -/
def removeFirstById (i : Nat) : List Notification → Option (Notification × List Notification)
  | [] => none
  | n :: rest =>
    if n.id = i then some (n, rest)
    else
      match removeFirstById i rest with
      | some (m, rest2) => some (m, n :: rest2)
      | none => none

/-- Modelled from the spec (missing queues.c, §4.2): close-by-id: locate
the record by id in waiting or displayed; remove it, push it to history
and emit a close signal. An id not currently tracked is a silent no-op. -/
def queues_notification_close_id (cfg : Config) (i : Nat) (r : Reason)
    (st : QueueState) : QueueState :=
  match removeFirstById i st.waiting with
  | some (n, w2) => closeAndSignal cfg r n { st with waiting := w2 }
  | none =>
    match removeFirstById i st.displayed with
    | some (n, d2) => closeAndSignal cfg r n { st with displayed := d2 }
    | none => st

/-- Modelled from the spec (missing queues.c, §4.2): close the given
record, delegating to close-by-id. -/
def queues_notification_close (cfg : Config) (n : Notification) (r : Reason)
    (st : QueueState) : QueueState :=
  queues_notification_close_id cfg n.id r st

/-- Replace the first record whose id equals the id of the replacement,
splicing the replacement into the exact same position; none when no record
matches. -/
def replaceFirstById (new : Notification) : List Notification → Option (List Notification)
  | [] => none
  | n :: rest =>
    if n.id = new.id then some (new :: rest)
    else (replaceFirstById new rest).map (fun rest2 => n :: rest2)

/-- Modelled from the spec (missing queues.c, §4.2): replace-by-id: locate
the record whose id matches the id of the new record in any collection and
splice the new record into the exact same position; report success as a
boolean, leaving the store unchanged on failure. -/
def queues_notification_replace_id (new : Notification) (st : QueueState) :
    Bool × QueueState :=
  match replaceFirstById new st.waiting with
  | some w2 => (true, { st with waiting := w2 })
  | none =>
    match replaceFirstById new st.displayed with
    | some d2 => (true, { st with displayed := d2 })
    | none =>
      match replaceFirstById new st.history with
      | some h2 => (true, { st with history := h2 })
      | none => (false, st)

/-- Modelled from the spec (missing queues.c, §4.2): the active
duplicate-matching rule: same origin/content signature. -/
def equivUnder (n m : Notification) : Bool :=
  n.signature == m.signature

/-- Record update applied when an incoming duplicate is stacked onto an
existing record: the duplicate count grows by one and the timestamp is
refreshed for timeout recalculation; position and id are untouched. -/
def stackBump (incoming existing : Notification) : Notification :=
  { existing with dupCount := existing.dupCount + 1, timestamp := incoming.timestamp }

/-- Scan a collection for the first record equivalent to the incoming one
under the duplicate-matching rule and bump it in place; none when no
record matches. -/
def stackFirstEquiv (incoming : Notification) : List Notification → Option (List Notification)
  | [] => none
  | m :: rest =>
    if equivUnder incoming m then some (stackBump incoming m :: rest)
    else (stackFirstEquiv incoming rest).map (fun rest2 => m :: rest2)

/-- Modelled from the spec (missing queues.c, §4.2): the non-duplicate
path of insertion: when the caller provided a nonzero id, attempt
replacement in place; when no record with that id exists in any collection
(so the provided id cannot collide), fall back to a fresh insert at the
back of waiting, keeping the id counter above every id ever used. A record
whose id was assigned by the engine is appended directly. -/
def insertNonDup (providedId : Nat) (n : Notification) (st : QueueState) :
    Nat × QueueState :=
  if providedId ≠ 0 then
    match queues_notification_replace_id n st with
    | (true, st2) => (n.id, st2)
    | (false, st2) =>
      (n.id, { st2 with
                waiting := st2.waiting ++ [n],
                nextId := max st2.nextId (n.id + 1) })
  else
    (n.id, { st with waiting := st.waiting ++ [n] })

/-- Modelled from the spec (missing queues.c, §4.2): a record with id 0 is
assigned the next fresh id before any further processing. -/
def assignId (n0 : Notification) (st0 : QueueState) : Notification :=
  if n0.id = 0 then { n0 with id := st0.nextId } else n0

/-- Modelled from the spec (missing queues.c, §4.2): assigning a fresh id
advances the monotone id counter. -/
def bumpCounter (n0 : Notification) (st0 : QueueState) : QueueState :=
  if n0.id = 0 then { st0 with nextId := st0.nextId + 1 } else st0

/-- Modelled from the spec (missing queues.c, §4.2): Insert: a record with
id 0 is assigned the next fresh id; then, when stacking is enabled by
policy, the waiting and displayed collections are scanned for a record
equivalent under the duplicate-matching rule, and a match dismisses the
incoming record with result 0 after bumping the match in place; otherwise
the record replaces the record carrying its provided id, or is appended to
waiting, and its (nonzero) id is returned. -/
def queues_notification_insert (cfg : Config) (n0 : Notification)
    (st0 : QueueState) : Nat × QueueState :=
  if cfg.stackDuplicates then
    match stackFirstEquiv (assignId n0 st0) st0.waiting with
    | some w2 => (0, { bumpCounter n0 st0 with waiting := w2 })
    | none =>
      match stackFirstEquiv (assignId n0 st0) st0.displayed with
      | some d2 => (0, { bumpCounter n0 st0 with displayed := d2 })
      | none => insertNonDup n0.id (assignId n0 st0) (bumpCounter n0 st0)
  else insertNonDup n0.id (assignId n0 st0) (bumpCounter n0 st0)

/-- Modelled from the spec (missing queues.c, §4.3): the promotion loop of
Update: while the displayed count is below the limit (or the limit is 0,
unlimited) and waiting is non-empty, pop the front waiting record and
append it to displayed, stamping it with a shown-at timestamp. -/
def promoteLoop (now : Int) (limit : Nat) :
    List Notification → List Notification → List Notification × List Notification
  | [], d => ([], d)
  | w :: ws, d =>
    if limit = 0 ∨ d.length < limit then
      promoteLoop now limit ws (d ++ [{ w with timestamp := now }])
    else (w :: ws, d)

/-- Modelled from the spec (missing queues.c, §4.3): Update, the periodic
reconciliation pass: when paused it returns immediately with no
promotions; otherwise it runs the promotion loop. The fullscreen status
only matters for the lazily evaluated timeout policy, not for
promotion. -/
def queues_update (now : Int) (fullscreen : Bool) (st : QueueState) : QueueState :=
  if st.paused then st
  else
    let p := promoteLoop now st.limit st.waiting st.displayed
    { st with waiting := p.1, displayed := p.2 }

/-- Modelled from the spec (missing queues.c, §4.3): a record times out
when its computed expiry exists and is at or before the current time. -/
def shouldTimeout (cfg : Config) (idle fullscreen : Bool) (idleStart now : Int)
    (n : Notification) : Bool :=
  match expiry cfg idle fullscreen idleStart now n with
  | none => false
  | some t => decide (t ≤ now)

/-- Modelled from the spec (missing queues.c, §4.3): Check-timeouts, the
expiry pass: every displayed record, and every transient waiting record,
whose computed expiry is at or before the current time is closed with
reason timeout; never-expire records are skipped; the pass never
promotes. -/
def queues_check_timeouts (cfg : Config) (idle fullscreen : Bool)
    (idleStart now : Int) (st : QueueState) : QueueState :=
  (st.displayed.filter (shouldTimeout cfg idle fullscreen idleStart now) ++
      st.waiting.filter
        (fun n => n.transient && shouldTimeout cfg idle fullscreen idleStart now n)).foldl
    (fun s n => closeAndSignal cfg Reason.timeout n s)
    { st with
      displayed :=
        st.displayed.filter (fun n => !shouldTimeout cfg idle fullscreen idleStart now n),
      waiting :=
        st.waiting.filter
          (fun n => !(n.transient && shouldTimeout cfg idle fullscreen idleStart now n)) }

/-- Modelled from the spec (missing queues.c, §4.5): delta until a
record's expiry: none for never-expire records; a computed time already in
the past contributes zero. -/
def expiryDelta (cfg : Config) (idle fullscreen : Bool) (idleStart now : Int)
    (n : Notification) : Option Int :=
  (expiry cfg idle fullscreen idleStart now n).map (fun t => max 0 (t - now))

/-- Modelled from the spec (missing queues.c, §4.5): delta until a
displayed record's age crosses into the next reportable unit: the
configured age threshold when the age is still below it, otherwise the
next whole second. -/
def ageDelta (cfg : Config) (now : Int) (n : Notification) : Int :=
  let age := now - n.timestamp
  match cfg.ageThreshold with
  | some t => if age < t then max 0 (t - age) else max 0 (1000 - age.emod 1000)
  | none => max 0 (1000 - age.emod 1000)

/-- Minimum of a list of integers, none when the list is empty. -/
def listMin : List Int → Option Int
  | [] => none
  | x :: xs =>
    match listMin xs with
    | none => some x
    | some m => some (min x m)

/-- Modelled from the spec (missing queues.c, §4.5): all applicable
upcoming-event deltas: expiry deltas of waiting and displayed records and
age-tick deltas of displayed records. -/
def upcomingDeltas (cfg : Config) (idle fullscreen : Bool) (idleStart now : Int)
    (st : QueueState) : List Int :=
  (st.waiting ++ st.displayed).filterMap (expiryDelta cfg idle fullscreen idleStart now)
    ++ st.displayed.map (ageDelta cfg now)

/-- Modelled from the spec (missing queues.c, §4.5): Next-Event
Calculator: the minimum of all applicable upcoming-event deltas, none as
the sentinel when no event applies. -/
def queues_get_next_datachange (cfg : Config) (idle fullscreen : Bool)
    (idleStart now : Int) (st : QueueState) : Option Int :=
  listMin (upcomingDeltas cfg idle fullscreen idleStart now st)

/-- Modelled from the spec (missing queues.c, §4.3): History-pop: remove
the most recently archived record from history and re-insert it into
displayed when the display limit allows, otherwise into waiting, with a
fresh shown-at timestamp; a no-op when history is empty. -/
def queues_history_pop (now : Int) (st : QueueState) : QueueState :=
  match st.history with
  | [] => st
  | h :: rest =>
    let h2 := { h with timestamp := now }
    if st.limit = 0 ∨ st.displayed.length < st.limit then
      { st with history := rest, displayed := st.displayed ++ [h2] }
    else
      { st with history := rest, waiting := st.waiting ++ [h2] }

/-- Modelled from the spec (missing queues.c, §4.3): History-push-all:
push every waiting and displayed record to history in arrival order,
leaving waiting and displayed empty. -/
def queues_history_push_all (cfg : Config) (st : QueueState) : QueueState :=
  (st.waiting ++ st.displayed).foldl
    (fun s n => queues_history_push cfg n s)
    { st with waiting := [], displayed := [] }

/-- Modelled from the spec (missing queues.c, §6): teardown: all records
of all collections are freed. -/
def teardown_queues (st : QueueState) : QueueState :=
  { st with waiting := [], displayed := [], history := [] }

/-- Store invariant used for the reachability proof: ids of live records
are pairwise distinct, nonzero and below the id counter, and the counter
is at least 1. -/
def Inv (st : QueueState) : Prop :=
  (liveIds st).Nodup ∧ (∀ i ∈ liveIds st, i ≠ 0 ∧ i < st.nextId) ∧ 1 ≤ st.nextId

/-- Modelled from the spec (missing queues.c, §8): the states reachable by
any sequence of engine calls, starting from init. The history-push step
carries the documented ownership precondition (§3, §4.3): the pushed
record was removed from its queue, so it is a live engine record absent
from every collection, with an engine-assigned (nonzero, already counted)
id. -/
inductive Reachable : QueueState → Prop where
  | init : Reachable queues_init
  | insert (cfg : Config) (n : Notification) (st : QueueState) :
      Reachable st → Reachable (queues_notification_insert cfg n st).2
  | replace (n : Notification) (st : QueueState) :
      Reachable st → Reachable (queues_notification_replace_id n st).2
  | close (cfg : Config) (i : Nat) (r : Reason) (st : QueueState) :
      Reachable st → Reachable (queues_notification_close_id cfg i r st)
  | update (now : Int) (fullscreen : Bool) (st : QueueState) :
      Reachable st → Reachable (queues_update now fullscreen st)
  | checkTimeouts (cfg : Config) (idle fullscreen : Bool) (idleStart now : Int)
      (st : QueueState) :
      Reachable st → Reachable (queues_check_timeouts cfg idle fullscreen idleStart now st)
  | historyPop (now : Int) (st : QueueState) :
      Reachable st → Reachable (queues_history_pop now st)
  | historyPush (cfg : Config) (n : Notification) (st : QueueState) :
      Reachable st → n.id ≠ 0 → n.id ∉ liveIds st → n.id < st.nextId →
      Reachable (queues_history_push cfg n st)
  | historyPushAll (cfg : Config) (st : QueueState) :
      Reachable st → Reachable (queues_history_push_all cfg st)
  | pauseOn (st : QueueState) : Reachable st → Reachable (queues_pause_on st)
  | pauseOff (st : QueueState) : Reachable st → Reachable (queues_pause_off st)
  | setLimit (limit : Nat) (st : QueueState) :
      Reachable st → Reachable (queues_displayed_limit limit st)

/-- Sample configuration with duplicate stacking enabled. -/
def cfgStack : Config :=
  ⟨true, Duration.millis 5000, none, 0, none⟩

/-- Sample configuration with duplicate stacking disabled. -/
def cfgNoStack : Config :=
  ⟨false, Duration.millis 5000, none, 0, none⟩

/-- Sample unassigned notification with signature 1. -/
def noteA : Notification :=
  ⟨0, 1, Duration.millis 5000, false, 0, 0⟩

/-- Sample unassigned notification with signature 2. -/
def noteB : Notification :=
  ⟨0, 2, Duration.millis 5000, false, 0, 0⟩

/-- Sample never-expiring notification with signature 3. -/
def noteNever : Notification :=
  ⟨0, 3, Duration.never, false, 0, 0⟩

/-- Sample live notification with id 9 and signature 1. -/
def noteR9 : Notification :=
  ⟨9, 1, Duration.millis 5000, false, 0, 0⟩

/-- Sample replacement notification sharing id 9, with signature 2. -/
def noteNew9 : Notification :=
  ⟨9, 2, Duration.millis 1000, false, 5, 0⟩

/-- Sample state with one record waiting. -/
def stWaitR : QueueState :=
  ⟨[noteR9], [], [], false, 0, 10, []⟩

/-- Sample state with one record displayed. -/
def stDispR : QueueState :=
  ⟨[], [noteR9], [], false, 0, 10, []⟩

@[simp]
theorem ids_nil : ids [] = [] := rfl

@[simp]
theorem ids_cons (n : Notification) (l : List Notification) :
    ids (n :: l) = n.id :: ids l := rfl

@[simp]
theorem ids_append (l₁ l₂ : List Notification) :
    ids (l₁ ++ l₂) = ids l₁ ++ ids l₂ :=
  List.map_append _ _ _

theorem mem_ids {i : Nat} {l : List Notification} :
    i ∈ ids l ↔ ∃ n ∈ l, n.id = i := by
  simp [ids]

theorem subperm_nodup {l₁ l₂ : List Nat} (h : l₁ <+~ l₂) (h₂ : l₂.Nodup) :
    l₁.Nodup := by
  obtain ⟨l, hp, hs⟩ := h
  exact hp.nodup (h₂.sublist hs)

theorem subperm_append_left_mono (l : List Nat) {l₁ l₂ : List Nat}
    (h : l₁ <+~ l₂) : l ++ l₁ <+~ l ++ l₂ := by
  obtain ⟨m, hp, hs⟩ := h
  exact ⟨l ++ m, hp.append_left l, hs.append_left l⟩

theorem removeFirstById_some {i : Nat} {l l' : List Notification}
    {n : Notification} (h : removeFirstById i l = some (n, l')) :
    ∃ l₁ l₂, l = l₁ ++ n :: l₂ ∧ l' = l₁ ++ l₂ ∧ n.id = i ∧
      ∀ m ∈ l₁, m.id ≠ i := by
  induction l generalizing l' with
  | nil => simp [removeFirstById] at h
  | cons a rest ih =>
    by_cases ha : a.id = i
    · rw [removeFirstById, if_pos ha] at h
      obtain ⟨rfl, rfl⟩ : a = n ∧ rest = l' := by
        simpa using h
      exact ⟨[], rest, rfl, rfl, ha, by simp⟩
    · rw [removeFirstById, if_neg ha] at h
      cases hrec : removeFirstById i rest with
      | none => rw [hrec] at h; simp at h
      | some p =>
        obtain ⟨m, rest2⟩ := p
        rw [hrec] at h
        obtain ⟨rfl, rfl⟩ : m = n ∧ a :: rest2 = l' := by
          simpa using h
        obtain ⟨l₁, l₂, rfl, rfl, hid, hpre⟩ := ih hrec
        refine ⟨a :: l₁, l₂, rfl, rfl, hid, ?_⟩
        intro m hm
        rcases List.mem_cons.mp hm with rfl | hm
        · exact ha
        · exact hpre m hm

theorem removeFirstById_none {i : Nat} {l : List Notification} :
    removeFirstById i l = none ↔ i ∉ ids l := by
  induction l with
  | nil => simp [removeFirstById]
  | cons a rest ih =>
    by_cases ha : a.id = i
    · rw [removeFirstById, if_pos ha]
      simp [ha]
    · rw [removeFirstById, if_neg ha]
      cases hrec : removeFirstById i rest with
      | none =>
        have hni : i ∉ ids rest := ih.mp hrec
        simp only [ids_cons, List.mem_cons]
        constructor
        · intro _ hmem
          rcases hmem with h1 | h2
          · exact ha h1.symm
          · exact hni h2
        · intro _
          trivial
      | some p =>
        have hmem : i ∈ ids rest := by
          by_contra hni
          exact Option.noConfusion ((ih.mpr hni).symm.trans hrec)
        simp only [ids_cons, List.mem_cons]
        constructor
        · intro hfalse
          exact Option.noConfusion hfalse
        · intro hnot
          exact absurd (Or.inr hmem) hnot

theorem replaceFirstById_none {new : Notification} {l : List Notification} :
    replaceFirstById new l = none ↔ new.id ∉ ids l := by
  induction l with
  | nil => simp [replaceFirstById]
  | cons a rest ih =>
    by_cases ha : a.id = new.id
    · rw [replaceFirstById, if_pos ha]
      simp [ha]
    · rw [replaceFirstById, if_neg ha]
      simp only [ids_cons, List.mem_cons, Option.map_eq_none']
      rw [ih]
      constructor
      · intro hni hmem
        rcases hmem with h1 | h2
        · exact ha h1.symm
        · exact hni h2
      · intro hnot hmem
        exact hnot (Or.inr hmem)

theorem replaceFirstById_ids {new : Notification} {l l' : List Notification}
    (h : replaceFirstById new l = some l') : ids l' = ids l := by
  induction l generalizing l' with
  | nil => simp [replaceFirstById] at h
  | cons a rest ih =>
    by_cases ha : a.id = new.id
    · rw [replaceFirstById, if_pos ha] at h
      obtain rfl : new :: rest = l' := by simpa using h
      simp [ha]
    · rw [replaceFirstById, if_neg ha] at h
      cases hrec : replaceFirstById new rest with
      | none => rw [hrec] at h; simp at h
      | some rest2 =>
        rw [hrec] at h
        obtain rfl : a :: rest2 = l' := by simpa using h
        simp [ih hrec]

theorem replaceFirstById_decomp {new old : Notification}
    {l₁ l₂ : List Notification} (hpre : ∀ m ∈ l₁, m.id ≠ new.id)
    (hid : old.id = new.id) :
    replaceFirstById new (l₁ ++ old :: l₂) = some (l₁ ++ new :: l₂) := by
  induction l₁ with
  | nil => simp [replaceFirstById, hid]
  | cons a rest ih =>
    have ha : a.id ≠ new.id := hpre a (List.mem_cons_self a rest)
    rw [List.cons_append, replaceFirstById, if_neg ha,
      ih (fun m hm => hpre m (List.mem_cons_of_mem a hm))]
    rfl

theorem stackFirstEquiv_none {incoming : Notification} {l : List Notification} :
    stackFirstEquiv incoming l = none ↔ ∀ m ∈ l, equivUnder incoming m = false := by
  induction l with
  | nil => simp [stackFirstEquiv]
  | cons a rest ih =>
    by_cases ha : equivUnder incoming a
    · rw [stackFirstEquiv, if_pos ha]
      simp [ha]
    · rw [stackFirstEquiv, if_neg ha]
      simp only [Option.map_eq_none', List.mem_cons]
      rw [ih]
      constructor
      · intro hall m hm
        rcases hm with rfl | hm
        · exact Bool.eq_false_iff.mpr ha
        · exact hall m hm
      · intro hall m hm
        exact hall m (Or.inr hm)

theorem stackFirstEquiv_ids {incoming : Notification} {l l' : List Notification}
    (h : stackFirstEquiv incoming l = some l') : ids l' = ids l := by
  induction l generalizing l' with
  | nil => simp [stackFirstEquiv] at h
  | cons a rest ih =>
    by_cases ha : equivUnder incoming a
    · rw [stackFirstEquiv, if_pos ha] at h
      obtain rfl : stackBump incoming a :: rest = l' := by simpa using h
      simp [stackBump]
    · rw [stackFirstEquiv, if_neg ha] at h
      cases hrec : stackFirstEquiv incoming rest with
      | none => rw [hrec] at h; simp at h
      | some rest2 =>
        rw [hrec] at h
        obtain rfl : a :: rest2 = l' := by simpa using h
        simp [ih hrec]

theorem stackFirstEquiv_decomp {incoming R : Notification}
    {l₁ l₂ : List Notification} (hpre : ∀ m ∈ l₁, equivUnder incoming m = false)
    (hR : equivUnder incoming R = true) :
    stackFirstEquiv incoming (l₁ ++ R :: l₂) =
      some (l₁ ++ stackBump incoming R :: l₂) := by
  induction l₁ with
  | nil => simp [stackFirstEquiv, hR]
  | cons a rest ih =>
    have ha : ¬ equivUnder incoming a := by
      simp [hpre a (List.mem_cons_self a rest)]
    rw [List.cons_append, stackFirstEquiv, if_neg ha,
      ih (fun m hm => hpre m (List.mem_cons_of_mem a hm))]
    rfl

theorem promoteLoop_perm (now : Int) (limit : Nat) (w d : List Notification) :
    ids (promoteLoop now limit w d).1 ++ ids (promoteLoop now limit w d).2 ~
      ids w ++ ids d := by
  induction w generalizing d with
  | nil => simp [promoteLoop]
  | cons a ws ih =>
    rw [promoteLoop]
    by_cases h : limit = 0 ∨ d.length < limit
    · rw [if_pos h]
      refine (ih (d ++ [{ a with timestamp := now }])).trans ?_
      simp only [ids_append, ids_cons, ids_nil]
      calc ids ws ++ (ids d ++ [a.id])
          ~ (ids ws ++ ids d) ++ [a.id] := by rw [List.append_assoc]
        _ ~ a.id :: (ids ws ++ ids d) := List.perm_append_singleton _ _
        _ ~ a.id :: ids ws ++ ids d := by rw [List.cons_append]
    · rw [if_neg h]

theorem promoteLoop_length {now : Int} {limit : Nat} (hl : limit ≠ 0)
    (w d : List Notification) :
    (promoteLoop now limit w d).2.length ≤ max limit d.length := by
  induction w generalizing d with
  | nil =>
    simp only [promoteLoop]
    exact le_max_right _ _
  | cons a ws ih =>
    rw [promoteLoop]
    by_cases h : limit = 0 ∨ d.length < limit
    · rw [if_pos h]
      have hd : d.length < limit := h.resolve_left hl
      refine (ih (d ++ [{ a with timestamp := now }])).trans ?_
      have hlen : (d ++ [{ a with timestamp := now }]).length = d.length + 1 := by
        simp
      rw [hlen, max_eq_left hd]
      exact le_max_left _ _
    · rw [if_neg h]
      exact le_max_right _ _

theorem promoteLoop_single (now : Int) (limit : Nat) (a : Notification) :
    promoteLoop now limit [a] [] = ([], [{ a with timestamp := now }]) := by
  have hcond : limit = 0 ∨ ([] : List Notification).length < limit := by
    rcases Nat.eq_zero_or_pos limit with h | h
    · exact Or.inl h
    · exact Or.inr (by simpa using h)
  rw [promoteLoop, if_pos hcond]
  rfl

theorem enforceHistoryCap_sublist (cfg : Config) (h : List Notification) :
    enforceHistoryCap cfg h <+ h := by
  rw [enforceHistoryCap]
  split
  · exact List.take_sublist _ _
  · exact List.Sublist.refl _

theorem history_push_live (cfg : Config) (n : Notification) (st : QueueState) :
    liveIds (queues_history_push cfg n st) <+~ n.id :: liveIds st := by
  have hsub : ids (enforceHistoryCap cfg (n :: st.history)) <+ n.id :: ids st.history := by
    have h := (enforceHistoryCap_sublist cfg (n :: st.history)).map (fun m => m.id)
    simpa [ids] using h
  have hsub2 : liveIds (queues_history_push cfg n st) <+
      (ids st.waiting ++ ids st.displayed) ++ (n.id :: ids st.history) := by
    simp only [liveIds, queues_history_push]
    exact hsub.append_left (ids st.waiting ++ ids st.displayed)
  have hperm : (ids st.waiting ++ ids st.displayed) ++ (n.id :: ids st.history) ~
      n.id :: liveIds st := by
    rw [liveIds]
    exact List.perm_middle
  exact hsub2.subperm.trans hperm.subperm

theorem closeAndSignal_live (cfg : Config) (r : Reason) (n : Notification)
    (st : QueueState) :
    liveIds (closeAndSignal cfg r n st) <+~ n.id :: liveIds st :=
  history_push_live cfg n st

theorem foldl_live_subperm (f : QueueState → Notification → QueueState)
    (hf : ∀ n s, liveIds (f s n) <+~ n.id :: liveIds s)
    (hfn : ∀ n s, (f s n).nextId = s.nextId) :
    ∀ (l : List Notification) (s : QueueState),
      liveIds (l.foldl f s) <+~ ids l ++ liveIds s ∧
        (l.foldl f s).nextId = s.nextId := by
  intro l
  induction l with
  | nil =>
    intro s
    exact ⟨List.Subperm.refl _, rfl⟩
  | cons n rest ih =>
    intro s
    obtain ⟨ihp, ihn⟩ := ih (f s n)
    constructor
    · refine ihp.trans ?_
      refine (subperm_append_left_mono (ids rest) (hf n s)).trans ?_
      exact (List.perm_middle.trans (List.Perm.refl _)).subperm
    · rw [List.foldl_cons, ihn, hfn]

theorem Inv_of_subperm {st st' : QueueState} (hi : Inv st)
    (h : liveIds st' <+~ liveIds st) (hn : st.nextId ≤ st'.nextId) :
    Inv st' := by
  obtain ⟨hnd, hb, h1⟩ := hi
  refine ⟨subperm_nodup h hnd, ?_, le_trans h1 hn⟩
  intro i hi'
  obtain ⟨hz, hlt⟩ := hb i (h.subset hi')
  exact ⟨hz, lt_of_lt_of_le hlt hn⟩

theorem Inv_of_subperm_cons {st st' : QueueState} {a : Nat} (hi : Inv st)
    (h : liveIds st' <+~ a :: liveIds st) (ha0 : a ≠ 0)
    (hmem : a ∉ liveIds st) (halt : a < st'.nextId)
    (hn : st.nextId ≤ st'.nextId) : Inv st' := by
  obtain ⟨hnd, hb, h1⟩ := hi
  have hnd' : (a :: liveIds st).Nodup := List.nodup_cons.mpr ⟨hmem, hnd⟩
  refine ⟨subperm_nodup h hnd', ?_, le_trans h1 hn⟩
  intro i hi'
  rcases List.mem_cons.mp (h.subset hi') with rfl | hmem'
  · exact ⟨ha0, halt⟩
  · obtain ⟨hz, hlt⟩ := hb i hmem'
    exact ⟨hz, lt_of_lt_of_le hlt hn⟩

theorem perm_extract_waiting (a : Nat) (x y u v : List Nat) :
    ((x ++ a :: y) ++ u) ++ v ~ a :: (((x ++ y) ++ u) ++ v) := by
  have h0 : x ++ a :: y ~ a :: (x ++ y) := List.perm_middle
  have h := (h0.append_right u).append_right v
  simpa using h

theorem perm_extract_displayed (a : Nat) (w x y v : List Nat) :
    (w ++ (x ++ a :: y)) ++ v ~ a :: ((w ++ (x ++ y)) ++ v) := by
  have h0 : x ++ a :: y ~ a :: (x ++ y) := List.perm_middle
  have h1 : w ++ a :: (x ++ y) ~ a :: (w ++ (x ++ y)) := List.perm_middle
  have h := ((List.Perm.append_left w h0).trans h1).append_right v
  simpa using h

theorem perm_append_last_waiting (a : Nat) (x u v : List Nat) :
    ((x ++ [a]) ++ u) ++ v ~ a :: ((x ++ u) ++ v) := by
  have h := ((List.perm_append_singleton a x).append_right u).append_right v
  simpa using h

theorem perm_append_last_displayed (a : Nat) (w x v : List Nat) :
    (w ++ (x ++ [a])) ++ v ~ a :: ((w ++ x) ++ v) := by
  have h0 : x ++ [a] ~ a :: x := List.perm_append_singleton a x
  have h1 : w ++ a :: x ~ a :: (w ++ x) := List.perm_middle
  have h := ((List.Perm.append_left w h0).trans h1).append_right v
  simpa using h

theorem Inv_init : Inv queues_init := by
  refine ⟨?_, ?_, ?_⟩ <;> simp [liveIds, queues_init, ids]

theorem Inv_pause_on {st : QueueState} (h : Inv st) : Inv (queues_pause_on st) :=
  Inv_of_subperm h (List.Subperm.refl _) (le_refl _)

theorem Inv_pause_off {st : QueueState} (h : Inv st) : Inv (queues_pause_off st) :=
  Inv_of_subperm h (List.Subperm.refl _) (le_refl _)

theorem Inv_displayed_limit (limit : Nat) {st : QueueState} (h : Inv st) :
    Inv (queues_displayed_limit limit st) :=
  Inv_of_subperm h (List.Subperm.refl _) (le_refl _)

theorem Inv_replace (n : Notification) {st : QueueState} (h : Inv st) :
    Inv (queues_notification_replace_id n st).2 := by
  rw [queues_notification_replace_id]
  cases hw : replaceFirstById n st.waiting with
  | some w2 =>
    show Inv { st with waiting := w2 }
    refine Inv_of_subperm h ?_ (le_refl _)
    have he : liveIds { st with waiting := w2 } = liveIds st := by
      simp only [liveIds]
      rw [replaceFirstById_ids hw]
    rw [he]
  | none =>
    cases hd : replaceFirstById n st.displayed with
    | some d2 =>
      show Inv { st with displayed := d2 }
      refine Inv_of_subperm h ?_ (le_refl _)
      have he : liveIds { st with displayed := d2 } = liveIds st := by
        simp only [liveIds]
        rw [replaceFirstById_ids hd]
      rw [he]
    | none =>
      cases hh : replaceFirstById n st.history with
      | some h2 =>
        show Inv { st with history := h2 }
        refine Inv_of_subperm h ?_ (le_refl _)
        have he : liveIds { st with history := h2 } = liveIds st := by
          simp only [liveIds]
          rw [replaceFirstById_ids hh]
        rw [he]
      | none => exact h

theorem replace_id_false {n : Notification} {st : QueueState}
    (h : (queues_notification_replace_id n st).1 = false) :
    (queues_notification_replace_id n st).2 = st ∧ n.id ∉ liveIds st := by
  have hw : replaceFirstById n st.waiting = none := by
    cases hwx : replaceFirstById n st.waiting with
    | none => rfl
    | some w2 => rw [queues_notification_replace_id, hwx] at h; simp at h
  have hd : replaceFirstById n st.displayed = none := by
    cases hdx : replaceFirstById n st.displayed with
    | none => rfl
    | some d2 => rw [queues_notification_replace_id, hw, hdx] at h; simp at h
  have hh : replaceFirstById n st.history = none := by
    cases hhx : replaceFirstById n st.history with
    | none => rfl
    | some h2 => rw [queues_notification_replace_id, hw, hd, hhx] at h; simp at h
  rw [queues_notification_replace_id, hw, hd, hh]
  refine ⟨rfl, ?_⟩
  have h1 := replaceFirstById_none.mp hw
  have h2 := replaceFirstById_none.mp hd
  have h3 := replaceFirstById_none.mp hh
  simp only [liveIds, List.mem_append]
  rintro ((hm | hm) | hm)
  · exact h1 hm
  · exact h2 hm
  · exact h3 hm

theorem Inv_close (cfg : Config) (i : Nat) (r : Reason) {st : QueueState}
    (h : Inv st) : Inv (queues_notification_close_id cfg i r st) := by
  rw [queues_notification_close_id]
  cases hw : removeFirstById i st.waiting with
  | some p =>
    obtain ⟨n, w2⟩ := p
    obtain ⟨l₁, l₂, hl, hw2, -, -⟩ := removeFirstById_some hw
    show Inv (closeAndSignal cfg r n { st with waiting := w2 })
    refine Inv_of_subperm h ?_ (le_refl _)
    refine (closeAndSignal_live cfg r n _).trans ?_
    subst hw2
    have hperm : liveIds st ~
        n.id :: liveIds { st with waiting := l₁ ++ l₂ } := by
      simp only [liveIds]
      rw [hl]
      simp only [ids_append, ids_cons]
      exact perm_extract_waiting n.id (ids l₁) (ids l₂) (ids st.displayed)
        (ids st.history)
    exact hperm.symm.subperm
  | none =>
    cases hd : removeFirstById i st.displayed with
    | some p =>
      obtain ⟨n, d2⟩ := p
      obtain ⟨l₁, l₂, hl, hd2, -, -⟩ := removeFirstById_some hd
      show Inv (closeAndSignal cfg r n { st with displayed := d2 })
      refine Inv_of_subperm h ?_ (le_refl _)
      refine (closeAndSignal_live cfg r n _).trans ?_
      subst hd2
      have hperm : liveIds st ~
          n.id :: liveIds { st with displayed := l₁ ++ l₂ } := by
        simp only [liveIds]
        rw [hl]
        simp only [ids_append, ids_cons]
        exact perm_extract_displayed n.id (ids st.waiting) (ids l₁) (ids l₂)
          (ids st.history)
      exact hperm.symm.subperm
    | none => exact h

@[simp]
theorem bumpCounter_waiting (n0 : Notification) (st0 : QueueState) :
    (bumpCounter n0 st0).waiting = st0.waiting := by
  rw [bumpCounter]; split <;> rfl

@[simp]
theorem bumpCounter_displayed (n0 : Notification) (st0 : QueueState) :
    (bumpCounter n0 st0).displayed = st0.displayed := by
  rw [bumpCounter]; split <;> rfl

@[simp]
theorem bumpCounter_history (n0 : Notification) (st0 : QueueState) :
    (bumpCounter n0 st0).history = st0.history := by
  rw [bumpCounter]; split <;> rfl

@[simp]
theorem bumpCounter_signals (n0 : Notification) (st0 : QueueState) :
    (bumpCounter n0 st0).signals = st0.signals := by
  rw [bumpCounter]; split <;> rfl

@[simp]
theorem liveIds_bumpCounter (n0 : Notification) (st0 : QueueState) :
    liveIds (bumpCounter n0 st0) = liveIds st0 := by
  rw [liveIds, liveIds, bumpCounter_waiting, bumpCounter_displayed,
    bumpCounter_history]

theorem bumpCounter_nextId_le (n0 : Notification) (st0 : QueueState) :
    st0.nextId ≤ (bumpCounter n0 st0).nextId := by
  rw [bumpCounter]
  split
  · exact Nat.le_succ _
  · exact le_refl _

theorem Inv_bumpCounter (n0 : Notification) {st0 : QueueState} (h : Inv st0) :
    Inv (bumpCounter n0 st0) :=
  Inv_of_subperm h (by rw [liveIds_bumpCounter]) (bumpCounter_nextId_le n0 st0)

theorem assignId_id_ne_zero {n0 : Notification} {st0 : QueueState}
    (h : Inv st0) : (assignId n0 st0).id ≠ 0 ∨ n0.id = 0 := by
  rw [assignId]
  split
  · exact Or.inr (by assumption)
  · exact Or.inl (by assumption)

theorem Inv_update (now : Int) (fullscreen : Bool) {st : QueueState}
    (h : Inv st) : Inv (queues_update now fullscreen st) := by
  rw [queues_update]
  by_cases hp : st.paused
  · rw [if_pos hp]; exact h
  · rw [if_neg hp]
    refine Inv_of_subperm h ?_ (le_refl _)
    have hperm := promoteLoop_perm now st.limit st.waiting st.displayed
    simp only [liveIds]
    exact (hperm.append_right (ids st.history)).subperm

theorem Inv_history_pop (now : Int) {st : QueueState} (h : Inv st) :
    Inv (queues_history_pop now st) := by
  cases hh : st.history with
  | nil =>
    rw [queues_history_pop, hh]
    exact h
  | cons h0 rest =>
    rw [queues_history_pop, hh]
    show Inv (if st.limit = 0 ∨ st.displayed.length < st.limit then
        { st with
          history := rest,
          displayed := st.displayed ++ [{ h0 with timestamp := now }] }
      else
        { st with
          history := rest,
          waiting := st.waiting ++ [{ h0 with timestamp := now }] })
    have hp2 : liveIds st ~
        h0.id :: ((ids st.waiting ++ ids st.displayed) ++ ids rest) := by
      rw [liveIds, hh]
      exact List.perm_middle
    by_cases hc : st.limit = 0 ∨ st.displayed.length < st.limit
    · rw [if_pos hc]
      refine Inv_of_subperm h ?_ (le_refl _)
      have hp1 : liveIds { st with
          history := rest,
          displayed := st.displayed ++ [{ h0 with timestamp := now }] } ~
          h0.id :: ((ids st.waiting ++ ids st.displayed) ++ ids rest) := by
        simp only [liveIds, ids_append]
        exact perm_append_last_displayed h0.id (ids st.waiting)
          (ids st.displayed) (ids rest)
      exact (hp1.trans hp2.symm).subperm
    · rw [if_neg hc]
      refine Inv_of_subperm h ?_ (le_refl _)
      have hp1 : liveIds { st with
          history := rest,
          waiting := st.waiting ++ [{ h0 with timestamp := now }] } ~
          h0.id :: ((ids st.waiting ++ ids st.displayed) ++ ids rest) := by
        simp only [liveIds, ids_append]
        exact perm_append_last_waiting h0.id (ids st.waiting)
          (ids st.displayed) (ids rest)
      exact (hp1.trans hp2.symm).subperm

theorem Inv_history_push (cfg : Config) (n : Notification) {st : QueueState}
    (h : Inv st) (h0 : n.id ≠ 0) (hmem : n.id ∉ liveIds st)
    (hlt : n.id < st.nextId) : Inv (queues_history_push cfg n st) :=
  Inv_of_subperm_cons h (history_push_live cfg n st) h0 hmem hlt (le_refl _)

theorem Inv_history_push_all (cfg : Config) {st : QueueState} (h : Inv st) :
    Inv (queues_history_push_all cfg st) := by
  obtain ⟨hsp, hn⟩ := foldl_live_subperm (fun s n => queues_history_push cfg n s)
    (fun n s => history_push_live cfg n s) (fun n s => rfl)
    (st.waiting ++ st.displayed) { st with waiting := [], displayed := [] }
  refine Inv_of_subperm h ?_ ?_
  · rw [queues_history_push_all]
    refine hsp.trans ?_
    have he : ids (st.waiting ++ st.displayed) ++
        liveIds { st with waiting := [], displayed := [] } = liveIds st := by
      simp [liveIds]
    rw [he]
  · rw [queues_history_push_all, hn]

theorem ids_filter_perm (p : Notification → Bool) (l : List Notification) :
    ids (l.filter p) ++ ids (l.filter (fun n => !p n)) ~ ids l := by
  have h := (List.filter_append_perm p l).map (fun n => n.id)
  simpa [ids] using h

theorem Inv_check_timeouts (cfg : Config) (idle fullscreen : Bool)
    (idleStart now : Int) {st : QueueState} (h : Inv st) :
    Inv (queues_check_timeouts cfg idle fullscreen idleStart now st) := by
  obtain ⟨hsp, hn⟩ := foldl_live_subperm
    (fun s n => closeAndSignal cfg Reason.timeout n s)
    (fun n s => closeAndSignal_live cfg Reason.timeout n s) (fun n s => rfl)
    (st.displayed.filter (shouldTimeout cfg idle fullscreen idleStart now) ++
      st.waiting.filter
        (fun n => n.transient && shouldTimeout cfg idle fullscreen idleStart now n))
    { st with
      displayed :=
        st.displayed.filter (fun n => !shouldTimeout cfg idle fullscreen idleStart now n),
      waiting :=
        st.waiting.filter
          (fun n => !(n.transient && shouldTimeout cfg idle fullscreen idleStart now n)) }
  refine Inv_of_subperm h ?_ ?_
  · rw [queues_check_timeouts]
    refine hsp.trans ?_
    have hD := ids_filter_perm (shouldTimeout cfg idle fullscreen idleStart now)
      st.displayed
    have hW := ids_filter_perm
      (fun n => n.transient && shouldTimeout cfg idle fullscreen idleStart now n)
      st.waiting
    have hDm := Multiset.coe_eq_coe.mpr hD
    have hWm := Multiset.coe_eq_coe.mpr hW
    rw [← Multiset.coe_add] at hDm hWm
    refine List.Perm.subperm ?_
    rw [← Multiset.coe_eq_coe]
    simp only [liveIds, ids_append, ← Multiset.coe_add]
    rw [← hDm, ← hWm]
    abel
  · rw [queues_check_timeouts, hn]

theorem insertNonDup_eq_zero (n : Notification) (st : QueueState) :
    insertNonDup 0 n st = (n.id, { st with waiting := st.waiting ++ [n] }) := by
  rw [insertNonDup, if_neg (by simp)]

theorem insertNonDup_eq_pos {providedId : Nat} (hp : providedId ≠ 0)
    (n : Notification) (st : QueueState) :
    insertNonDup providedId n st =
      if (queues_notification_replace_id n st).1 then
        (n.id, (queues_notification_replace_id n st).2)
      else
        (n.id, { (queues_notification_replace_id n st).2 with
                  waiting := (queues_notification_replace_id n st).2.waiting ++ [n],
                  nextId := max (queues_notification_replace_id n st).2.nextId (n.id + 1) }) := by
  rw [insertNonDup, if_pos hp]
  cases hq : queues_notification_replace_id n st with
  | mk b stx =>
    cases b <;> simp [hq]

theorem Inv_insert (cfg : Config) (n0 : Notification) {st0 : QueueState}
    (h : Inv st0) : Inv (queues_notification_insert cfg n0 st0).2 := by
  have hbk := Inv_bumpCounter n0 h
  have hperm0 : ∀ w2, ids w2 = ids st0.waiting →
      Inv { bumpCounter n0 st0 with waiting := w2 } := by
    intro w2 hw2
    refine Inv_of_subperm hbk ?_ (le_refl _)
    have he : liveIds { bumpCounter n0 st0 with waiting := w2 } =
        liveIds (bumpCounter n0 st0) := by
      simp only [liveIds, bumpCounter_displayed, bumpCounter_history]
      rw [hw2, bumpCounter_waiting]
    rw [he]
  have hperm1 : ∀ d2, ids d2 = ids st0.displayed →
      Inv { bumpCounter n0 st0 with displayed := d2 } := by
    intro d2 hd2
    refine Inv_of_subperm hbk ?_ (le_refl _)
    have he : liveIds { bumpCounter n0 st0 with displayed := d2 } =
        liveIds (bumpCounter n0 st0) := by
      simp only [liveIds, bumpCounter_waiting, bumpCounter_history]
      rw [hd2, bumpCounter_displayed]
    rw [he]
  have hnondup : Inv (insertNonDup n0.id (assignId n0 st0) (bumpCounter n0 st0)).2 := by
    by_cases hz : n0.id = 0
    · rw [hz, insertNonDup_eq_zero]
      show Inv { bumpCounter n0 st0 with
        waiting := (bumpCounter n0 st0).waiting ++ [assignId n0 st0] }
      have hid : (assignId n0 st0).id = st0.nextId := by
        rw [assignId, if_pos hz]
      have hbn : (bumpCounter n0 st0).nextId = st0.nextId + 1 := by
        rw [bumpCounter, if_pos hz]
      have hlive : liveIds { bumpCounter n0 st0 with
          waiting := (bumpCounter n0 st0).waiting ++ [assignId n0 st0] } ~
          (assignId n0 st0).id :: liveIds (bumpCounter n0 st0) := by
        simp only [liveIds, ids_append, bumpCounter_waiting,
          bumpCounter_displayed, bumpCounter_history]
        exact perm_append_last_waiting (assignId n0 st0).id (ids st0.waiting)
          (ids st0.displayed) (ids st0.history)
      have hnz : (assignId n0 st0).id ≠ 0 := by
        rw [hid]
        obtain ⟨-, -, h1⟩ := h
        omega
      have hnm : (assignId n0 st0).id ∉ liveIds (bumpCounter n0 st0) := by
        rw [hid, liveIds_bumpCounter]
        intro hmem
        obtain ⟨-, hb, -⟩ := h
        exact absurd (hb _ hmem).2 (lt_irrefl _)
      refine Inv_of_subperm_cons hbk hlive.subperm hnz hnm ?_ ?_
      · simp only [hid]
        simp [hbn]
      · simp [hbn]
    · have hna : assignId n0 st0 = n0 := by rw [assignId, if_neg hz]
      have hba : bumpCounter n0 st0 = st0 := by rw [bumpCounter, if_neg hz]
      rw [hna, hba, insertNonDup_eq_pos hz]
      by_cases hb1 : (queues_notification_replace_id n0 st0).1 = true
      · rw [if_pos hb1]
        exact Inv_replace n0 h
      · rw [if_neg hb1]
        have hb1f : (queues_notification_replace_id n0 st0).1 = false := by
          cases hq : (queues_notification_replace_id n0 st0).1
          · rfl
          · exact absurd hq hb1
        obtain ⟨hst2, hnm⟩ := replace_id_false hb1f
        rw [hst2]
        show Inv { st0 with
          waiting := st0.waiting ++ [n0],
          nextId := max st0.nextId (n0.id + 1) }
        have hp : liveIds { st0 with
            waiting := st0.waiting ++ [n0],
            nextId := max st0.nextId (n0.id + 1) } ~ n0.id :: liveIds st0 := by
          simp only [liveIds, ids_append]
          exact perm_append_last_waiting n0.id (ids st0.waiting)
            (ids st0.displayed) (ids st0.history)
        refine Inv_of_subperm_cons h hp.subperm hz hnm ?_ ?_
        · show n0.id < max st0.nextId (n0.id + 1)
          exact lt_of_lt_of_le (Nat.lt_succ_self _) (le_max_right _ _)
        · show st0.nextId ≤ max st0.nextId (n0.id + 1)
          exact le_max_left _ _
  rw [queues_notification_insert]
  by_cases hsd : cfg.stackDuplicates
  · rw [if_pos hsd]
    cases hw : stackFirstEquiv (assignId n0 st0) st0.waiting with
    | some w2 =>
      exact hperm0 w2 (stackFirstEquiv_ids hw)
    | none =>
      cases hd : stackFirstEquiv (assignId n0 st0) st0.displayed with
      | some d2 =>
        exact hperm1 d2 (stackFirstEquiv_ids hd)
      | none =>
        exact hnondup
  · rw [if_neg hsd]
    exact hnondup

theorem Inv_reachable {st : QueueState} (h : Reachable st) : Inv st := by
  induction h with
  | init => exact Inv_init
  | insert cfg n st _ ih => exact Inv_insert cfg n ih
  | replace n st _ ih => exact Inv_replace n ih
  | close cfg i r st _ ih => exact Inv_close cfg i r ih
  | update now fullscreen st _ ih => exact Inv_update now fullscreen ih
  | checkTimeouts cfg idle fullscreen idleStart now st _ ih =>
    exact Inv_check_timeouts cfg idle fullscreen idleStart now ih
  | historyPop now st _ ih => exact Inv_history_pop now ih
  | historyPush cfg n st _ h0 hmem hlt ih =>
    exact Inv_history_push cfg n ih h0 hmem hlt
  | historyPushAll cfg st _ ih => exact Inv_history_push_all cfg ih
  | pauseOn st _ ih => exact Inv_pause_on ih
  | pauseOff st _ ih => exact Inv_pause_off ih
  | setLimit limit st _ ih => exact Inv_displayed_limit limit ih

theorem removeFirstById_mem {i : Nat} {l : List Notification} (h : i ∈ ids l) :
    ∃ p, removeFirstById i l = some p := by
  cases hr : removeFirstById i l with
  | none => exact absurd h (removeFirstById_none.mp hr)
  | some p => exact ⟨p, rfl⟩

theorem replace_id_not_mem {new : Notification} {st : QueueState}
    (h : new.id ∉ liveIds st) :
    queues_notification_replace_id new st = (false, st) := by
  have hsplit : new.id ∉ ids st.waiting ∧ new.id ∉ ids st.displayed ∧
      new.id ∉ ids st.history := by
    simp only [liveIds, List.mem_append] at h
    push_neg at h
    exact ⟨h.1.1, h.1.2, h.2⟩
  rw [queues_notification_replace_id,
    replaceFirstById_none.mpr hsplit.1,
    replaceFirstById_none.mpr hsplit.2.1,
    replaceFirstById_none.mpr hsplit.2.2]

theorem equivUnder_assignId (n0 m : Notification) (st0 : QueueState) :
    equivUnder (assignId n0 st0) m = equivUnder n0 m := by
  rw [assignId]
  split <;> rfl

theorem stackBump_assignId (n0 R : Notification) (st0 : QueueState) :
    stackBump (assignId n0 st0) R = stackBump n0 R := by
  rw [assignId]
  split <;> rfl

theorem assignId_eq_of_ne {n0 : Notification} (st0 : QueueState)
    (h : n0.id ≠ 0) : assignId n0 st0 = n0 := by
  rw [assignId, if_neg h]

theorem bumpCounter_eq_of_ne {n0 : Notification} (st0 : QueueState)
    (h : n0.id ≠ 0) : bumpCounter n0 st0 = st0 := by
  rw [bumpCounter, if_neg h]

theorem foldl_close_proj (cfg : Config) (r : Reason) :
    ∀ (l : List Notification) (s : QueueState),
      (l.foldl (fun s n => closeAndSignal cfg r n s) s).waiting = s.waiting ∧
      (l.foldl (fun s n => closeAndSignal cfg r n s) s).displayed = s.displayed ∧
      (l.foldl (fun s n => closeAndSignal cfg r n s) s).signals =
        s.signals ++ l.map (fun n => (n.id, r)) := by
  intro l
  induction l with
  | nil =>
    intro s
    exact ⟨rfl, rfl, by simp⟩
  | cons n rest ih =>
    intro s
    obtain ⟨h1, h2, h3⟩ := ih (closeAndSignal cfg r n s)
    rw [List.foldl_cons]
    refine ⟨h1, h2, ?_⟩
    rw [h3]
    simp [closeAndSignal, queues_history_push]

theorem shouldTimeout_never {cfg : Config} {idle fullscreen : Bool}
    {idleStart now : Int} {n : Notification}
    (h : resolvedDuration cfg n = none) :
    shouldTimeout cfg idle fullscreen idleStart now n = false := by
  simp [shouldTimeout, expiry, h]

theorem expiry_eq_none {cfg : Config} {idle fullscreen : Bool}
    {idleStart now : Int} {n : Notification} :
    expiry cfg idle fullscreen idleStart now n = none ↔
      resolvedDuration cfg n = none := by
  rw [expiry]
  cases h : resolvedDuration cfg n
  · simp
  · simp only [h]
    split <;> simp

theorem expiryDelta_eq_none {cfg : Config} {idle fullscreen : Bool}
    {idleStart now : Int} {n : Notification} :
    expiryDelta cfg idle fullscreen idleStart now n = none ↔
      resolvedDuration cfg n = none := by
  rw [expiryDelta, Option.map_eq_none']
  exact expiry_eq_none

theorem expiryDelta_nonneg {cfg : Config} {idle fullscreen : Bool}
    {idleStart now : Int} {n : Notification} {d : Int}
    (h : expiryDelta cfg idle fullscreen idleStart now n = some d) : 0 ≤ d := by
  rw [expiryDelta] at h
  cases he : expiry cfg idle fullscreen idleStart now n with
  | none => rw [he] at h; simp at h
  | some t =>
    rw [he] at h
    obtain rfl : max 0 (t - now) = d := by simpa using h
    exact le_max_left 0 (t - now)

theorem ageDelta_nonneg (cfg : Config) (now : Int) (n : Notification) :
    0 ≤ ageDelta cfg now n := by
  rw [ageDelta]
  cases cfg.ageThreshold with
  | none => exact le_max_left _ _
  | some t =>
    dsimp only
    split
    · exact le_max_left _ _
    · exact le_max_left _ _

theorem listMin_eq_none {l : List Int} : listMin l = none ↔ l = [] := by
  cases l with
  | nil => simp [listMin]
  | cons x xs =>
    rw [listMin]
    cases listMin xs <;> simp

theorem listMin_spec : ∀ {l : List Int} {d : Int}, listMin l = some d →
    d ∈ l ∧ ∀ x ∈ l, d ≤ x := by
  intro l
  induction l with
  | nil => intro d h; simp [listMin] at h
  | cons x xs ih =>
    intro d h
    rw [listMin] at h
    cases hrec : listMin xs with
    | none =>
      rw [hrec] at h
      obtain rfl : x = d := by simpa using h
      have hnil : xs = [] := listMin_eq_none.mp hrec
      subst hnil
      exact ⟨List.mem_singleton_self _, by simp⟩
    | some m =>
      rw [hrec] at h
      obtain rfl : min x m = d := by simpa using h
      obtain ⟨hmem, hle⟩ := ih hrec
      constructor
      · rcases le_total x m with hc | hc
        · simp [min_eq_left hc]
        · rw [min_eq_right hc]
          exact List.mem_cons_of_mem x hmem
      · intro y hy
        rcases List.mem_cons.mp hy with rfl | hy
        · exact min_le_left _ _
        · exact le_trans (min_le_right _ _) (hle y hy)

/-- C1: for every reachable state of the queue store (any sequence of init,
insert, replace-by-id, close, update, check-timeouts, history-pop,
history-push, history-push-all and pause calls), the ids across the
waiting, displayed and history collections contain no duplicate, and no
live record has id 0. -/
theorem C1_reachable_ids_nodup (st : QueueState) (h : Reachable st) :
    (liveIds st).Nodup ∧ 0 ∉ liveIds st := by
  obtain ⟨hnd, hb, -⟩ := Inv_reachable h
  exact ⟨hnd, fun h0 => (hb 0 h0).1 rfl⟩

theorem C1_reachable_ids_nodup_witness :
    (liveIds (queues_update 50 false
        (queues_notification_insert cfgNoStack noteB
          (queues_notification_insert cfgNoStack noteA queues_init).2).2)).Nodup ∧
      0 ∉ liveIds (queues_update 50 false
        (queues_notification_insert cfgNoStack noteB
          (queues_notification_insert cfgNoStack noteA queues_init).2).2) :=
  C1_reachable_ids_nodup _
    (Reachable.update 50 false _
      (Reachable.insert cfgNoStack noteB _
        (Reachable.insert cfgNoStack noteA _ Reachable.init)))

/-- C6: while the pause flag is set, update performs no promotions and
leaves the whole store (in particular waiting and displayed) exactly
unchanged, for every state and fullscreen value; after pause-off, the next
update promotes waiting records normally: a single waiting record moves to
displayed with a fresh shown-at timestamp. -/
theorem C6_update_paused_frozen :
    (∀ (now : Int) (fullscreen : Bool) (st : QueueState), st.paused = true →
      queues_update now fullscreen st = st) ∧
    (∀ (now : Int) (fullscreen : Bool) (st : QueueState) (a : Notification),
      st.paused = true → st.waiting = [a] → st.displayed = [] →
      (queues_update now fullscreen (queues_pause_off st)).displayed =
          [{ a with timestamp := now }] ∧
        (queues_update now fullscreen (queues_pause_off st)).waiting = []) := by
  constructor
  · intro now fullscreen st hp
    rw [queues_update, if_pos hp]
  · intro now fullscreen st a hp hw hd
    rw [queues_update]
    rw [if_neg (by simp [queues_pause_off])]
    have hw2 : (queues_pause_off st).waiting = [a] := hw
    have hd2 : (queues_pause_off st).displayed = [] := hd
    have hl2 : (queues_pause_off st).limit = st.limit := rfl
    rw [hw2, hd2, hl2, promoteLoop_single]
    exact ⟨rfl, rfl⟩

theorem C6_update_paused_frozen_witness :
    (queues_update 10 false (queues_pause_on queues_init) =
      queues_pause_on queues_init) ∧
    ((queues_update 10 false (queues_pause_off
        (⟨[⟨1, 1, Duration.millis 5000, false, 0, 0⟩], [], [], true, 0, 2, []⟩ :
          QueueState))).displayed =
        [⟨1, 1, Duration.millis 5000, false, 10, 0⟩] ∧
      (queues_update 10 false (queues_pause_off
        (⟨[⟨1, 1, Duration.millis 5000, false, 0, 0⟩], [], [], true, 0, 2, []⟩ :
          QueueState))).waiting = []) :=
  ⟨C6_update_paused_frozen.1 10 false (queues_pause_on queues_init) rfl,
    C6_update_paused_frozen.2 10 false _ ⟨1, 1, Duration.millis 5000, false, 0, 0⟩
      rfl rfl rfl⟩

/-- C9: for every state with non-empty history, history-pop removes the
most recently archived record from history and re-inserts it into displayed
when the display limit allows, otherwise into waiting, with a fresh
shown-at timestamp; when history is empty, history-pop is a no-op. -/
theorem C9_history_pop_spec :
    (∀ (now : Int) (st : QueueState), st.history = [] →
      queues_history_pop now st = st) ∧
    (∀ (now : Int) (st : QueueState) (h0 : Notification)
        (rest : List Notification), st.history = h0 :: rest →
      (st.limit = 0 ∨ st.displayed.length < st.limit →
        queues_history_pop now st = { st with
          history := rest,
          displayed := st.displayed ++ [{ h0 with timestamp := now }] }) ∧
      (¬(st.limit = 0 ∨ st.displayed.length < st.limit) →
        queues_history_pop now st = { st with
          history := rest,
          waiting := st.waiting ++ [{ h0 with timestamp := now }] })) := by
  constructor
  · intro now st hh
    rw [queues_history_pop, hh]
  · intro now st h0 rest hh
    rw [queues_history_pop, hh]
    constructor
    · intro hc
      show (if st.limit = 0 ∨ st.displayed.length < st.limit then _ else _) = _
      rw [if_pos hc]
    · intro hc
      show (if st.limit = 0 ∨ st.displayed.length < st.limit then _ else _) = _
      rw [if_neg hc]

theorem C9_history_pop_spec_witness :
    (queues_history_pop 7 queues_init = queues_init) ∧
    ((⟨[], [], [noteA], false, 0, 2, []⟩ : QueueState).history = noteA :: [] ∧
      (((⟨[], [], [noteA], false, 0, 2, []⟩ : QueueState).limit = 0 ∨
          (⟨[], [], [noteA], false, 0, 2, []⟩ :
            QueueState).displayed.length <
            (⟨[], [], [noteA], false, 0, 2, []⟩ : QueueState).limit) →
        queues_history_pop 7 (⟨[], [], [noteA], false, 0, 2, []⟩ : QueueState) =
          { (⟨[], [], [noteA], false, 0, 2, []⟩ : QueueState) with
            history := [],
            displayed := (⟨[], [], [noteA], false, 0, 2, []⟩ :
              QueueState).displayed ++ [{ noteA with timestamp := 7 }] })) :=
  ⟨(C9_history_pop_spec.1 7 queues_init rfl),
    ⟨rfl, (C9_history_pop_spec.2 7 _ noteA [] rfl).1⟩⟩

/-- C2 counterexample: a state reached by inserting two records, promoting
both under an unlimited display, and then lowering the display limit to 1;
the next update call runs with pause off and a positive limit, yet leaves
two records displayed, because update never evicts. -/
theorem C2_counterexample :
    queues_pause_status (queues_update 20 false (queues_displayed_limit 1
        (queues_update 10 false (queues_notification_insert cfgNoStack noteB
          (queues_notification_insert cfgNoStack noteA
            queues_init).2).2))) = false ∧
    0 < (queues_update 20 false (queues_displayed_limit 1
        (queues_update 10 false (queues_notification_insert cfgNoStack noteB
          (queues_notification_insert cfgNoStack noteA
            queues_init).2).2))).limit ∧
    ¬(queues_length_displayed (queues_update 20 false (queues_displayed_limit 1
        (queues_update 10 false (queues_notification_insert cfgNoStack noteB
          (queues_notification_insert cfgNoStack noteA
            queues_init).2).2))) ≤
      (queues_update 20 false (queues_displayed_limit 1
        (queues_update 10 false (queues_notification_insert cfgNoStack noteB
          (queues_notification_insert cfgNoStack noteA
            queues_init).2).2))).limit) := by
  decide

/-- C2 amended: immediately after any update call made while pause-status
is false and the display limit is positive, the displayed count is at most
the maximum of the limit and the pre-update displayed count; in particular
the limit bound holds after the update whenever it held before it, and
setting a new display limit by itself changes no collection. The
unconditional bound of the original claim fails when the limit is lowered
below the current displayed count, because update never evicts. -/
theorem C2_update_respects_limit (now : Int) (fullscreen : Bool)
    (st : QueueState) (hp : st.paused = false) (hl : 0 < st.limit) :
    queues_length_displayed (queues_update now fullscreen st) ≤
      max st.limit (queues_length_displayed st) ∧
    (queues_length_displayed st ≤ st.limit →
      queues_length_displayed (queues_update now fullscreen st) ≤ st.limit) ∧
    (∀ limit : Nat, (queues_displayed_limit limit st).waiting = st.waiting ∧
      (queues_displayed_limit limit st).displayed = st.displayed ∧
      (queues_displayed_limit limit st).history = st.history) := by
  have hb : queues_length_displayed (queues_update now fullscreen st) ≤
      max st.limit (queues_length_displayed st) := by
    rw [queues_update, if_neg (by simp [hp])]
    exact promoteLoop_length (Nat.pos_iff_ne_zero.mp hl) st.waiting st.displayed
  refine ⟨hb, ?_, ?_⟩
  · intro hle
    have : max st.limit (queues_length_displayed st) = st.limit :=
      max_eq_left hle
    rw [this] at hb
    exact hb
  · intro limit
    exact ⟨rfl, rfl, rfl⟩

theorem C2_update_respects_limit_witness :
    ((⟨[noteA], [], [], false, 1, 2, []⟩ : QueueState).paused = false ∧
      0 < (⟨[noteA], [], [], false, 1, 2, []⟩ : QueueState).limit) ∧
    (queues_length_displayed (queues_update 3 false
        (⟨[noteA], [], [], false, 1, 2, []⟩ : QueueState)) ≤
      max (⟨[noteA], [], [], false, 1, 2, []⟩ : QueueState).limit
        (queues_length_displayed
          (⟨[noteA], [], [], false, 1, 2, []⟩ : QueueState))) :=
  ⟨⟨rfl, by decide⟩,
    (C2_update_respects_limit 3 false _ rfl (by decide)).1⟩

/-- C3: for a state containing a record R in waiting or displayed and an
incoming record equivalent to R under the duplicate-matching rule (with
stacking enabled by policy, and R the first match in scan order), insert
returns 0, adds the incoming record to no collection, increments R's
duplicate count by exactly 1 and refreshes its timestamp, leaving R's
position in its collection and every other collection unchanged. -/
theorem C3_duplicate_stacking (cfg : Config) (n0 R : Notification)
    (st0 : QueueState) (hsd : cfg.stackDuplicates = true) :
    (∀ w1 w2, st0.waiting = w1 ++ R :: w2 →
      (∀ m ∈ w1, equivUnder n0 m = false) → equivUnder n0 R = true →
      (queues_notification_insert cfg n0 st0).1 = 0 ∧
      (queues_notification_insert cfg n0 st0).2.waiting =
        w1 ++ { R with
          dupCount := R.dupCount + 1,
          timestamp := n0.timestamp } :: w2 ∧
      (queues_notification_insert cfg n0 st0).2.displayed = st0.displayed ∧
      (queues_notification_insert cfg n0 st0).2.history = st0.history) ∧
    (∀ d1 d2, st0.displayed = d1 ++ R :: d2 →
      (∀ m ∈ st0.waiting, equivUnder n0 m = false) →
      (∀ m ∈ d1, equivUnder n0 m = false) → equivUnder n0 R = true →
      (queues_notification_insert cfg n0 st0).1 = 0 ∧
      (queues_notification_insert cfg n0 st0).2.displayed =
        d1 ++ { R with
          dupCount := R.dupCount + 1,
          timestamp := n0.timestamp } :: d2 ∧
      (queues_notification_insert cfg n0 st0).2.waiting = st0.waiting ∧
      (queues_notification_insert cfg n0 st0).2.history = st0.history) := by
  constructor
  · intro w1 w2 hw hpre hR
    have hsfe : stackFirstEquiv (assignId n0 st0) st0.waiting =
        some (w1 ++ stackBump n0 R :: w2) := by
      rw [hw, ← stackBump_assignId n0 R st0]
      exact stackFirstEquiv_decomp
        (fun m hm => by rw [equivUnder_assignId]; exact hpre m hm)
        (by rw [equivUnder_assignId]; exact hR)
    rw [queues_notification_insert, if_pos hsd, hsfe]
    refine ⟨rfl, rfl, ?_, ?_⟩
    · show (bumpCounter n0 st0).displayed = st0.displayed
      exact bumpCounter_displayed n0 st0
    · show (bumpCounter n0 st0).history = st0.history
      exact bumpCounter_history n0 st0
  · intro d1 d2 hd hwall hpre hR
    have hnone : stackFirstEquiv (assignId n0 st0) st0.waiting = none :=
      stackFirstEquiv_none.mpr
        (fun m hm => by rw [equivUnder_assignId]; exact hwall m hm)
    have hsfe : stackFirstEquiv (assignId n0 st0) st0.displayed =
        some (d1 ++ stackBump n0 R :: d2) := by
      rw [hd, ← stackBump_assignId n0 R st0]
      exact stackFirstEquiv_decomp
        (fun m hm => by rw [equivUnder_assignId]; exact hpre m hm)
        (by rw [equivUnder_assignId]; exact hR)
    rw [queues_notification_insert, if_pos hsd, hnone, hsfe]
    refine ⟨rfl, rfl, ?_, ?_⟩
    · show (bumpCounter n0 st0).waiting = st0.waiting
      exact bumpCounter_waiting n0 st0
    · show (bumpCounter n0 st0).history = st0.history
      exact bumpCounter_history n0 st0

theorem C3_duplicate_stacking_witness :
    (queues_notification_insert cfgStack noteA stWaitR).1 = 0 ∧
    (queues_notification_insert cfgStack noteA stWaitR).2.waiting =
      [] ++ { noteR9 with
        dupCount := noteR9.dupCount + 1,
        timestamp := noteA.timestamp } :: [] ∧
    (queues_notification_insert cfgStack noteA stWaitR).2.displayed =
      stWaitR.displayed ∧
    (queues_notification_insert cfgStack noteA stWaitR).2.history =
      stWaitR.history :=
  (C3_duplicate_stacking cfgStack noteA noteR9 stWaitR rfl).1 [] [] rfl
    (by simp) (by decide)

/-- C4: closing is idempotent per id: for an id occurring exactly once in
waiting or displayed, the first close emits exactly one close signal and
archives exactly one record at the front of history (subject to the
capacity policy), and a second close of the same id changes nothing; an id
not tracked in waiting or displayed is a silent no-op. -/
theorem C4_close_idempotent (cfg : Config) (i : Nat) (r : Reason)
    (st : QueueState) :
    ((ids st.waiting ++ ids st.displayed).count i = 1 →
      (queues_notification_close_id cfg i r st).signals =
          st.signals ++ [(i, r)] ∧
        (∃ n, n.id = i ∧ (queues_notification_close_id cfg i r st).history =
          enforceHistoryCap cfg (n :: st.history)) ∧
        queues_notification_close_id cfg i r
            (queues_notification_close_id cfg i r st) =
          queues_notification_close_id cfg i r st) ∧
    (i ∉ ids st.waiting ++ ids st.displayed →
      queues_notification_close_id cfg i r st = st) := by
  have hnoop : ∀ s : QueueState, i ∉ ids s.waiting → i ∉ ids s.displayed →
      queues_notification_close_id cfg i r s = s := by
    intro s hw hd
    rw [queues_notification_close_id, removeFirstById_none.mpr hw,
      removeFirstById_none.mpr hd]
  constructor
  · intro hcount
    by_cases hiw : i ∈ ids st.waiting
    · obtain ⟨⟨n, w2⟩, hrw⟩ := removeFirstById_mem hiw
      obtain ⟨l₁, l₂, hl, hw2, hid, -⟩ := removeFirstById_some hrw
      have hz : (ids l₁).count i = 0 ∧ (ids l₂).count i = 0 ∧
          (ids st.displayed).count i = 0 := by
        rw [hl] at hcount
        simp only [ids_append, ids_cons, List.count_append, List.count_cons,
          hid] at hcount
        simp at hcount
        omega
      have hniw2 : i ∉ ids w2 := by
        rw [hw2, ids_append]
        intro hmem
        rcases List.mem_append.mp hmem with hm | hm
        · exact absurd (List.count_eq_zero.mp hz.1) (by simp [hm])
        · exact absurd (List.count_eq_zero.mp hz.2.1) (by simp [hm])
      have hnid : i ∉ ids st.displayed := List.count_eq_zero.mp hz.2.2
      rw [queues_notification_close_id, hrw]
      refine ⟨?_, ⟨n, hid, ?_⟩, ?_⟩
      · show ({ st with waiting := w2 } : QueueState).signals ++ [(n.id, r)] =
          st.signals ++ [(i, r)]
        rw [hid]
      · rfl
      · exact hnoop _ hniw2 hnid
    · have hrwn : removeFirstById i st.waiting = none :=
        removeFirstById_none.mpr hiw
      have hcd : (ids st.displayed).count i = 1 := by
        rw [List.count_append] at hcount
        have hcw : (ids st.waiting).count i = 0 := List.count_eq_zero.mpr hiw
        omega
      have hid' : i ∈ ids st.displayed := by
        rw [← List.count_pos_iff, hcd]
        omega
      obtain ⟨⟨n, d2⟩, hrd⟩ := removeFirstById_mem hid'
      obtain ⟨l₁, l₂, hl, hd2, hid, -⟩ := removeFirstById_some hrd
      have hz : (ids l₁).count i = 0 ∧ (ids l₂).count i = 0 := by
        rw [hl] at hcd
        simp only [ids_append, ids_cons, List.count_append, List.count_cons,
          hid] at hcd
        simp at hcd
        omega
      have hnid2 : i ∉ ids d2 := by
        rw [hd2, ids_append]
        intro hmem
        rcases List.mem_append.mp hmem with hm | hm
        · exact absurd (List.count_eq_zero.mp hz.1) (by simp [hm])
        · exact absurd (List.count_eq_zero.mp hz.2) (by simp [hm])
      rw [queues_notification_close_id, hrwn, hrd]
      refine ⟨?_, ⟨n, hid, ?_⟩, ?_⟩
      · show ({ st with displayed := d2 } : QueueState).signals ++ [(n.id, r)] =
          st.signals ++ [(i, r)]
        rw [hid]
      · rfl
      · exact hnoop _ hiw hnid2
  · intro hnm
    exact hnoop st (fun hm => hnm (List.mem_append_left _ hm))
      (fun hm => hnm (List.mem_append_right _ hm))

theorem C4_close_idempotent_witness :
    (ids stWaitR.waiting ++ ids stWaitR.displayed).count 9 = 1 ∧
    ((queues_notification_close_id cfgStack 9 Reason.dismissedByUser
        stWaitR).signals = stWaitR.signals ++ [(9, Reason.dismissedByUser)] ∧
      (∃ n, n.id = 9 ∧
        (queues_notification_close_id cfgStack 9 Reason.dismissedByUser
          stWaitR).history = enforceHistoryCap cfgStack (n :: stWaitR.history)) ∧
      queues_notification_close_id cfgStack 9 Reason.dismissedByUser
          (queues_notification_close_id cfgStack 9 Reason.dismissedByUser stWaitR) =
        queues_notification_close_id cfgStack 9 Reason.dismissedByUser stWaitR) :=
  ⟨by decide,
    (C4_close_idempotent cfgStack 9 Reason.dismissedByUser stWaitR).1 (by decide)⟩

/-- C5: when a record with the id of the replacement occupies position k of
some collection (the first occurrence in search order), replace-by-id
returns true and splices the new record into exactly the same collection
and index k, every other entry and collection unchanged, so the old record
is no longer reachable; when no live record carries that id, replace-by-id
returns false and the store is unchanged. -/
theorem C5_replace_in_place (new : Notification) (st : QueueState) :
    (∀ w1 old w2, st.waiting = w1 ++ old :: w2 → old.id = new.id →
      (∀ m ∈ w1, m.id ≠ new.id) →
      queues_notification_replace_id new st =
        (true, { st with waiting := w1 ++ new :: w2 })) ∧
    (∀ d1 old d2, st.displayed = d1 ++ old :: d2 → old.id = new.id →
      new.id ∉ ids st.waiting → (∀ m ∈ d1, m.id ≠ new.id) →
      queues_notification_replace_id new st =
        (true, { st with displayed := d1 ++ new :: d2 })) ∧
    (∀ h1 old h2, st.history = h1 ++ old :: h2 → old.id = new.id →
      new.id ∉ ids st.waiting → new.id ∉ ids st.displayed →
      (∀ m ∈ h1, m.id ≠ new.id) →
      queues_notification_replace_id new st =
        (true, { st with history := h1 ++ new :: h2 })) ∧
    (new.id ∉ liveIds st →
      queues_notification_replace_id new st = (false, st)) := by
  refine ⟨?_, ?_, ?_, fun hm => replace_id_not_mem hm⟩
  · intro w1 old w2 hw hids hpre
    rw [queues_notification_replace_id, hw, replaceFirstById_decomp hpre hids]
  · intro d1 old d2 hd hids hnw hpre
    rw [queues_notification_replace_id, replaceFirstById_none.mpr hnw, hd,
      replaceFirstById_decomp hpre hids]
  · intro h1 old h2 hh hids hnw hnd hpre
    rw [queues_notification_replace_id, replaceFirstById_none.mpr hnw,
      replaceFirstById_none.mpr hnd, hh, replaceFirstById_decomp hpre hids]

theorem C5_replace_in_place_witness :
    queues_notification_replace_id noteNew9 stDispR =
      (true, { stDispR with displayed := [] ++ noteNew9 :: [] }) :=
  (C5_replace_in_place noteNew9 stDispR).2.1 [] noteR9 [] rfl rfl
    (by decide) (by simp)

/-- C10: inserting a record with a nonzero id that matches no live record
in any collection, by id or by duplicate signature, does not fail: the
record is appended to the waiting collection as a fresh insert keeping its
provided id (a replacement id would only be reassigned on collision, and
none exists here), and insert returns that nonzero id. -/
theorem C10_insert_unknown_id_fresh (cfg : Config) (n : Notification)
    (st : QueueState) (hz : n.id ≠ 0) (hmem : n.id ∉ liveIds st)
    (hequiv : ∀ m ∈ st.waiting ++ st.displayed, equivUnder n m = false) :
    (queues_notification_insert cfg n st).1 = n.id ∧
    (queues_notification_insert cfg n st).1 ≠ 0 ∧
    (queues_notification_insert cfg n st).2.waiting = st.waiting ++ [n] ∧
    (queues_notification_insert cfg n st).2.displayed = st.displayed ∧
    (queues_notification_insert cfg n st).2.history = st.history := by
  have hna := assignId_eq_of_ne st hz
  have hba := bumpCounter_eq_of_ne st hz
  have hrep := replace_id_not_mem hmem
  have hfin : insertNonDup n.id n st =
      (n.id, { st with
        waiting := st.waiting ++ [n],
        nextId := max st.nextId (n.id + 1) }) := by
    rw [insertNonDup_eq_pos hz, hrep]
    simp
  rw [queues_notification_insert]
  by_cases hsd : cfg.stackDuplicates
  · rw [if_pos hsd, hna, hba,
      stackFirstEquiv_none.mpr (fun m hm => hequiv m (List.mem_append_left _ hm)),
      stackFirstEquiv_none.mpr (fun m hm => hequiv m (List.mem_append_right _ hm)),
      hfin]
    exact ⟨rfl, hz, rfl, rfl, rfl⟩
  · rw [if_neg hsd, hna, hba, hfin]
    exact ⟨rfl, hz, rfl, rfl, rfl⟩

theorem C10_insert_unknown_id_fresh_witness :
    (queues_notification_insert cfgStack noteNew9 queues_init).1 =
      noteNew9.id ∧
    (queues_notification_insert cfgStack noteNew9 queues_init).1 ≠ 0 ∧
    (queues_notification_insert cfgStack noteNew9 queues_init).2.waiting =
      queues_init.waiting ++ [noteNew9] ∧
    (queues_notification_insert cfgStack noteNew9 queues_init).2.displayed =
      queues_init.displayed ∧
    (queues_notification_insert cfgStack noteNew9 queues_init).2.history =
      queues_init.history :=
  C10_insert_unknown_id_fresh cfgStack noteNew9 queues_init (by decide)
    (by decide) (by simp [queues_init])

/-- C7: check-timeouts closes with reason timeout exactly those considered
records (every displayed record, and every transient waiting record) whose
computed expiry is at or before the current time: the survivors are exactly
the filtered collections and the emitted signals are exactly the timeout
signals of the expired records in pass order; records whose duration
resolves to never-expire are skipped; and the pass never moves any record
from waiting to displayed, since every record displayed afterwards was
displayed before. -/
theorem C7_check_timeouts (cfg : Config) (idle fullscreen : Bool)
    (idleStart now : Int) (st : QueueState) :
    (queues_check_timeouts cfg idle fullscreen idleStart now st).displayed =
      st.displayed.filter
        (fun n => !shouldTimeout cfg idle fullscreen idleStart now n) ∧
    (queues_check_timeouts cfg idle fullscreen idleStart now st).waiting =
      st.waiting.filter
        (fun n =>
          !(n.transient && shouldTimeout cfg idle fullscreen idleStart now n)) ∧
    (queues_check_timeouts cfg idle fullscreen idleStart now st).signals =
      st.signals ++
        (st.displayed.filter (shouldTimeout cfg idle fullscreen idleStart now) ++
          st.waiting.filter
            (fun n =>
              n.transient && shouldTimeout cfg idle fullscreen idleStart now n)).map
          (fun n => (n.id, Reason.timeout)) ∧
    (∀ n : Notification, resolvedDuration cfg n = none →
      shouldTimeout cfg idle fullscreen idleStart now n = false) ∧
    (∀ n ∈ (queues_check_timeouts cfg idle fullscreen idleStart now st).displayed,
      n ∈ st.displayed) := by
  obtain ⟨h1, h2, h3⟩ := foldl_close_proj cfg Reason.timeout
    (st.displayed.filter (shouldTimeout cfg idle fullscreen idleStart now) ++
      st.waiting.filter
        (fun n => n.transient && shouldTimeout cfg idle fullscreen idleStart now n))
    { st with
      displayed :=
        st.displayed.filter
          (fun n => !shouldTimeout cfg idle fullscreen idleStart now n),
      waiting :=
        st.waiting.filter
          (fun n =>
            !(n.transient && shouldTimeout cfg idle fullscreen idleStart now n)) }
  have hdisp : (queues_check_timeouts cfg idle fullscreen idleStart now st).displayed =
      st.displayed.filter
        (fun n => !shouldTimeout cfg idle fullscreen idleStart now n) := by
    rw [queues_check_timeouts]
    exact h2
  refine ⟨hdisp, ?_, ?_, fun n h => shouldTimeout_never h, ?_⟩
  · rw [queues_check_timeouts]
    exact h1
  · rw [queues_check_timeouts]
    exact h3
  · intro n hn
    rw [hdisp] at hn
    exact List.mem_of_mem_filter hn

theorem C7_check_timeouts_witness :
    (queues_check_timeouts cfgNoStack false false 0 6000 stDispR).displayed =
      stDispR.displayed.filter
        (fun n => !shouldTimeout cfgNoStack false false 0 6000 n) ∧
    shouldTimeout cfgNoStack false false 0 6000 noteNever = false :=
  ⟨(C7_check_timeouts cfgNoStack false false 0 6000 stDispR).1,
    (C7_check_timeouts cfgNoStack false false 0 6000 stDispR).2.2.2.1
      noteNever rfl⟩

/-- C8: next-datachange never returns a negative value: any returned delta
is nonnegative and is the minimum over all applicable upcoming-event
deltas, an event whose computed time is already in the past contributing a
delta of exactly zero; and the sentinel none is returned exactly when no
event applies: displayed is empty and every waiting record's duration
resolves to never-expire. -/
theorem C8_next_datachange (cfg : Config) (idle fullscreen : Bool)
    (idleStart now : Int) (st : QueueState) :
    (∀ d : Int,
      queues_get_next_datachange cfg idle fullscreen idleStart now st = some d →
      0 ≤ d ∧ d ∈ upcomingDeltas cfg idle fullscreen idleStart now st ∧
        ∀ x ∈ upcomingDeltas cfg idle fullscreen idleStart now st, d ≤ x) ∧
    (queues_get_next_datachange cfg idle fullscreen idleStart now st = none ↔
      st.displayed = [] ∧ ∀ n ∈ st.waiting, resolvedDuration cfg n = none) ∧
    (∀ (n : Notification) (t : Int),
      expiry cfg idle fullscreen idleStart now n = some t → t ≤ now →
      expiryDelta cfg idle fullscreen idleStart now n = some 0) := by
  refine ⟨?_, ?_, ?_⟩
  · intro d hd
    rw [queues_get_next_datachange] at hd
    obtain ⟨hmem, hle⟩ := listMin_spec hd
    refine ⟨?_, hmem, hle⟩
    rw [upcomingDeltas] at hmem
    rcases List.mem_append.mp hmem with hm | hm
    · obtain ⟨n, -, hfn⟩ := List.mem_filterMap.mp hm
      exact expiryDelta_nonneg hfn
    · obtain ⟨n, -, hfn⟩ := List.mem_map.mp hm
      rw [← hfn]
      exact ageDelta_nonneg cfg now n
  · rw [queues_get_next_datachange, listMin_eq_none, upcomingDeltas,
      List.append_eq_nil]
    constructor
    · rintro ⟨heds, hads⟩
      have hd : st.displayed = [] := by
        cases hdc : st.displayed with
        | nil => rfl
        | cons a l => rw [hdc] at hads; simp at hads
      refine ⟨hd, ?_⟩
      intro n hn
      have hnone : expiryDelta cfg idle fullscreen idleStart now n = none :=
        List.filterMap_eq_nil_iff.mp heds n (List.mem_append_left _ hn)
      exact expiryDelta_eq_none.mp hnone
    · rintro ⟨hd, hall⟩
      constructor
      · refine List.filterMap_eq_nil_iff.mpr ?_
        intro n hn
        rw [hd, List.append_nil] at hn
        exact expiryDelta_eq_none.mpr (hall n hn)
      · rw [hd]
        rfl
  · intro n t hexp hle
    rw [expiryDelta, hexp]
    have hmax : max 0 (t - now) = 0 := max_eq_left (by omega)
    simp [hmax]

theorem C8_next_datachange_witness :
    0 ≤ (900 : Int) ∧
    (900 : Int) ∈ upcomingDeltas cfgNoStack false false 0 100 stDispR ∧
    ∀ x ∈ upcomingDeltas cfgNoStack false false 0 100 stDispR, (900 : Int) ≤ x :=
  (C8_next_datachange cfgNoStack false false 0 100 stDispR).1 900 (by decide)

end DunstQueues
